import Mathlib

/-!
Shallow embedding of `git-status-tracker` (`src/main.rs`).

The program parses a raw "count code" git status string into a record
(`Status::new`), persists records in a key-value store keyed by the
bincode-serialized path (`Database::update` / `Database::get` over sled),
retries opening the store (`Database::new`), and renders a stored record
back to a display string (the `Get` arm of `main`).

Modelling conventions:
* Rust `String`/`&str` is Lean `String`; we work on `String.data : List Char`.
  Rust's `str::split(char)`, `str::trim`, `str::strip_suffix` are embedded as
  the char-list functions below with the same semantics (trim restricted to
  ASCII whitespace, which is all that occurs here).
* Machine integers (`u64`, lengths) are `Nat`; where the code's `u64` width
  matters (bincode little-endian fixed-width words, `str::parse::<u64>`
  overflow) we take `% 18446744073709551616` or bound by it explicitly.
* A Rust panic (out-of-bounds index, `.unwrap()` on `Err`) has no value to
  return, so a function that can panic is embedded with result `Option`,
  `none` meaning the process aborts.
* Fallible operations return `Except String`.
* `HashMap<String, u64>` is embedded as an association list with the map's
  lookup/insert semantics (`hashInsert` replaces an existing binding);
  iteration order of the Rust `HashMap` is unspecified, and nothing proved
  here depends on the representation order.
* sled is a key-value store: embedded as an association list from key bytes
  to value bytes with insert-or-replace; `flush` has no observable effect in
  this model. bincode (the 1.x default configuration used by
  `bincode::serialize`/`deserialize`) writes fixed 8-byte little-endian
  words and length-prefixed strings; bytes are `List Nat`, and string
  content bytes are modelled as the code points of the characters.
-/

namespace GitStatusTracker

/-! ## Char-list models of the Rust `str` operations used by the program -/

/-- Model of Rust `char::is_whitespace` restricted to the ASCII whitespace
characters (the only ones relevant to this program). -/
def isWspChar (c : Char) : Bool :=
  c == ' ' || c == '\t' || c == '\n' || c == '\r'

/-- Model of Rust `str::trim` on the character list. -/
def trimChars (cs : List Char) : List Char :=
  ((cs.dropWhile isWspChar).reverse.dropWhile isWspChar).reverse

/-- Model of Rust `str::trim`. -/
def trimStr (s : String) : String :=
  ⟨trimChars s.data⟩

/-- Model of Rust `str::split(sep: char)`: splits at every occurrence of
`sep`, keeping empty pieces; the empty string yields `[[]]`. -/
def splitChar (sep : Char) : List Char → List (List Char)
  | [] => [[]]
  | c :: rest =>
    if c = sep then [] :: splitChar sep rest
    else
      match splitChar sep rest with
      | [] => [[c]]
      | h :: t => (c :: h) :: t

/-- Model of Rust `str::strip_suffix(sep: char)`: removes exactly one
trailing `sep` if present, otherwise fails. -/
def stripSuffixChar (sep : Char) (cs : List Char) : Option (List Char) :=
  if cs.getLast? = some sep then some cs.dropLast else none

/-- Digit-string value: `cs.foldl (fun a c => a * 10 + (c.toNat - 48)) 0`,
the accumulator loop performed by Rust's `u64::from_str` on the digits. -/
def parseDigitsVal (cs : List Char) : Nat :=
  cs.foldl (fun a c => a * 10 + (c.toNat - 48)) 0

/-- Model of Rust `str::parse::<u64>()`: an optional leading `+`, then a
non-empty run of ASCII digits whose value fits in a `u64`; anything else is
an error (`none`). -/
def parseU64 (s : String) : Option Nat :=
  let cs := if s.data.head? == some '+' then s.data.tail else s.data
  if cs.isEmpty then none
  else if cs.all Char.isDigit then
    let n := parseDigitsVal cs
    if n < 18446744073709551616 then some n else none
  else none

/-! ## The `Status` record and the status-string codec (`Status::new`) -/

/-- The persisted record: `struct Status { path, branch, git_status }`.
`git_status` is the embedded `HashMap<String, u64>` as an association
list. -/
structure Status where
  path : String
  branch : String
  git_status : List (String × Nat)

/-- `HashMap::insert` semantics on the association-list embedding: the new
binding is present and any previous binding of the key is gone. -/
def hashInsert (m : List (String × Nat)) (k : String) (v : Nat) :
    List (String × Nat) :=
  (k, v) :: m.filter (fun q => !(q.1 == k))

/-- `HashMap::get` semantics on the association-list embedding. -/
def lookupKey (m : List (String × Nat)) (k : String) : Option Nat :=
  (m.find? (fun p => p.1 == k)).map (fun p => p.2)

/-- `collect::<HashMap<_, _>>()` over a list of key-value pairs: repeated
insertion, so a later binding of a key replaces an earlier one. -/
def buildMap (l : List (String × Nat)) : List (String × Nat) :=
  l.foldl (fun m p => hashInsert m p.1 p.2) []

/-- One segment of the raw status string, from the closure in `Status::new`:
`let parts = s.split(' ').collect::<Vec<&str>>();
(parts[1].to_string(), parts[0].parse::<u64>().unwrap())`.
`parts[1]` panics when there is no space, and `.unwrap()` panics when
`parts[0]` is not a `u64`; both aborts are `none`. -/
def parseSegment (s : String) : Option (String × Nat) :=
  match splitChar ' ' s.data with
  | p0 :: p1 :: _ => (parseU64 ⟨p0⟩).map (fun n => ((⟨p1⟩ : String), n))
  | _ => none

/-- Parses each segment in order; a panic in any segment aborts the whole
iterator (`none`). -/
def parseSegList : List (List Char) → Option (List (String × Nat))
  | [] => some []
  | s :: rest =>
    match parseSegment ⟨s⟩ with
    | none => none
    | some p => (parseSegList rest).map (fun l => p :: l)

/-- The parsed segments of a raw status string:
`git_status.split('|').filter(|s| !s.is_empty()).map(...)` from
`Status::new`, before collecting into the map. -/
def segmentsOf (raw : String) : Option (List (String × Nat)) :=
  parseSegList ((splitChar '|' raw.data).filter (fun s => !s.isEmpty))

/-- The status-string decoder: the `git_status` field computation of
`Status::new` (split on `|`, drop empty segments, parse each segment,
collect into the map). `none` is a panic of the Rust code. -/
def decode (raw : String) : Option (List (String × Nat)) :=
  (segmentsOf raw).map buildMap

/-- `Status::new(path, branch, git_status)`; `none` is a panic while parsing
`git_status`. -/
def Status.new (path branch git_status : String) : Option Status :=
  (decode git_status).map (fun m => ⟨path, branch, m⟩)

/-! ## The display encoder (the `Get` arm of `main`) -/

/-- Decimal digits of `n`, most significant first, as printed by Rust's
`{}` formatting of an integer.  The first argument is fuel; `n + 1` units
always suffice. -/
def natToDigitsAux : Nat → Nat → List Char → List Char
  | 0, _, acc => acc
  | fuel + 1, n, acc =>
    if n < 10 then Char.ofNat (48 + n % 10) :: acc
    else natToDigitsAux fuel (n / 10) (Char.ofNat (48 + n % 10) :: acc)

/-- Decimal digit characters of `n`. -/
def digitsOf (n : Nat) : List Char :=
  natToDigitsAux (n + 1) n []

/-- Decimal rendering of `n`, as Rust `{}` formatting. -/
def natToString (n : Nat) : String :=
  ⟨digitsOf n⟩

/-- One rendered entry: `print!("{} {} ", v, k)`. -/
def renderEntry (p : String × Nat) : String :=
  natToString p.2 ++ " " ++ p.1 ++ " "

/-- The joined output: `if i > 0 { print!("| "); } print!(...)` puts the
separator `"| "` between consecutive rendered entries. -/
def joinBar : List String → String
  | [] => ""
  | [s] => s
  | s :: rest => s ++ "| " ++ joinBar rest

/-- Rust `String` ordering (`x.0.cmp(&y.0)`): lexicographic on the bytes,
which for valid UTF-8 is lexicographic on the code points. -/
def strLtB : List Char → List Char → Bool
  | [], [] => false
  | [], _ :: _ => true
  | _ :: _, [] => false
  | a :: as, b :: bs =>
    if a.toNat < b.toNat then true
    else if b.toNat < a.toNat then false
    else strLtB as bs

/-- Insertion of an entry into a key-sorted list, strict comparison on the
key as Rust's `x.0.cmp(&y.0)`. -/
def insertByKey (p : String × Nat) : List (String × Nat) → List (String × Nat)
  | [] => [p]
  | q :: rest =>
    if strLtB p.1.data q.1.data then p :: q :: rest else q :: insertByKey p rest

/-- `statuses.sort_by(|x, y| x.0.cmp(&y.0))`: sorts the entries by key in
ascending lexicographic order. -/
def sortEntries : List (String × Nat) → List (String × Nat)
  | [] => []
  | p :: rest => insertByKey p (sortEntries rest)

/-- The status line printed by the `Get` arm of `main`: entries sorted by
code, each rendered `"<count> <code> "`, separated by `"| "`. -/
def encode (m : List (String × Nat)) : String :=
  joinBar ((sortEntries m).map renderEntry)

/-! ## bincode model (1.x default configuration: fixed-width little-endian) -/

/-- A `u64` as 8 little-endian bytes (bincode fixed-int encoding). -/
def serU64 (n : Nat) : List Nat :=
  [n % 256, n / 256 % 256, n / 65536 % 256, n / 16777216 % 256,
   n / 4294967296 % 256, n / 1099511627776 % 256,
   n / 281474976710656 % 256, n / 72057594037927936 % 256]

/-- Content bytes of a string (modelled as the code points of its
characters). -/
def strBytes (s : String) : List Nat :=
  s.data.map Char.toNat

/-- bincode serialization of a string: `u64` length prefix, then the
content bytes. -/
def serString (s : String) : List Nat :=
  serU64 s.data.length ++ strBytes s

/-- bincode serialization of the map entries in their iteration order. -/
def serEntries : List (String × Nat) → List Nat
  | [] => []
  | p :: rest => serString p.1 ++ serU64 p.2 ++ serEntries rest

/-- bincode serialization of a `Status` (fields in declaration order; the
map is its `u64` size followed by its entries). -/
def serStatus (st : Status) : List Nat :=
  serString st.path ++ serString st.branch ++
    serU64 st.git_status.length ++ serEntries st.git_status

/-- Reads a little-endian `u64`; fails when fewer than 8 bytes remain. -/
def readU64 : List Nat → Except String (Nat × List Nat)
  | b0 :: b1 :: b2 :: b3 :: b4 :: b5 :: b6 :: b7 :: rest =>
    .ok (b0 + 256 * b1 + 65536 * b2 + 16777216 * b3 + 4294967296 * b4 +
      1099511627776 * b5 + 281474976710656 * b6 +
      72057594037927936 * b7, rest)
  | _ => .error "unexpected end of input"

/-- Reads a length-prefixed string; fails when the input is too short. -/
def readString (bs : List Nat) : Except String (String × List Nat) :=
  match readU64 bs with
  | .error e => .error e
  | .ok (n, rest) =>
    if n ≤ rest.length then
      .ok (⟨(rest.take n).map Char.ofNat⟩, rest.drop n)
    else .error "unexpected end of input"

/-- Reads `n` map entries. -/
def readEntries : Nat → List Nat → Except String (List (String × Nat) × List Nat)
  | 0, bs => .ok ([], bs)
  | n + 1, bs =>
    match readString bs with
    | .error e => .error e
    | .ok (k, bs1) =>
      match readU64 bs1 with
      | .error e => .error e
      | .ok (v, bs2) =>
        match readEntries n bs2 with
        | .error e => .error e
        | .ok (rest, bs3) => .ok ((k, v) :: rest, bs3)

/-- bincode deserialization of a `Status`: reads the fields in order;
fails (as `bincode::deserialize` does) when the bytes run out. -/
def deserStatus (bs : List Nat) : Except String Status :=
  match readString bs with
  | .error e => .error e
  | .ok (path, bs1) =>
    match readString bs1 with
    | .error e => .error e
    | .ok (branch, bs2) =>
      match readU64 bs2 with
      | .error e => .error e
      | .ok (n, bs3) =>
        match readEntries n bs3 with
        | .error e => .error e
        | .ok (entries, _) => .ok ⟨path, branch, entries⟩

/-! ## The store (`Database` over sled) -/

/-- The sled store: key bytes to value bytes, insert-or-replace. -/
abbrev Database := List (List Nat × List Nat)

/-- A store with nothing written. -/
def emptyDb : Database := []

/-- sled `insert`: replaces any previous value of the key. -/
def storeInsert (db : Database) (k v : List Nat) : Database :=
  (k, v) :: db.filter (fun e => !(e.1 == k))

/-- sled `get`: the value bytes of the key, if present. -/
def storeLookup (db : Database) (k : List Nat) : Option (List Nat) :=
  (db.find? (fun e => e.1 == k)).map (fun e => e.2)

/-- `Database::update`: inserts the record under its serialized path and
flushes (the flush has no observable effect in this model). -/
def Database.update (db : Database) (status : Status) : Database :=
  storeInsert db (serString status.path) (serStatus status)

/-- `Database::get`: looks up the serialized path, substitutes the empty
byte string when absent (`unwrap_or_default`), and deserializes. -/
def Database.get (db : Database) (path : String) : Except String Status :=
  deserStatus ((storeLookup db (serString path)).getD [])

/-- Retrying open loop of `Database::new`.  `openRes i` is the result of
the `(i+1)`-th `sled::open` call; `attempts` is the count of failures so
far (the mutable `attempts` variable); `budget` is recursion fuel kept in
lockstep so that the recursion is structural (starting from
`Database.new`, `budget = 10 - attempts` whenever the loop recurses, so
the fuel never runs out).  Returns the result, the number of `sled::open`
calls made, and the number of 100 ms sleeps performed. -/
def dbNewGo (openRes : Nat → Except String Unit) :
    Nat → Nat → Except String Unit × Nat × Nat
  | budget, attempts =>
    match openRes attempts with
    | .ok d => (.ok d, attempts + 1, 0)
    | .error e =>
      if attempts + 1 > 10 then
        (.error ("failed after 10 attempts: " ++ e), attempts + 1, 0)
      else
        match budget with
        | 0 => (.error "model fuel exhausted", attempts + 1, 0)
        | b + 1 =>
          let r := dbNewGo openRes b (attempts + 1)
          (r.1, r.2.1, r.2.2 + 1)

/-- `Database::new`: the retry loop started with `attempts = 0`. -/
def Database.new (openRes : Nat → Except String Unit) :
    Except String Unit × Nat × Nat :=
  dbNewGo openRes 10 0

/-! ## The command arms of `main` -/

/-- Path canonicalization performed by the `Put` arm:
`p.path.trim().strip_suffix('/').unwrap_or(p.path.trim())`. -/
def canonicalize (p : String) : String :=
  let t : List Char := trimChars p.data
  match stripSuffixChar '/' t with
  | some s => ⟨s⟩
  | none => ⟨t⟩

/-- The `Put` arm of `main`: canonicalizes the path, builds the record from
the trimmed branch and trimmed raw status, and stores it; `none` is a
panic inside `Status::new`. -/
def mainPut (db : Database) (pathArg branchArg gitStatusArg : String) :
    Option Database :=
  (Status.new (canonicalize pathArg) (trimStr branchArg)
      (trimStr gitStatusArg)).map
    (fun st => Database.update db st)

/-- The `Get` arm of `main` looks the record up under the path argument as
given — no canonicalization: `db.get(&g.path)`. -/
def mainGet (db : Database) (pathArg : String) : Except String Status :=
  Database.get db pathArg

/-! ## Well-formedness bounds (all real Rust values satisfy them) -/

/-- Bounds making a record byte-exactly recoverable: every length and count
fits in a `u64` (automatic in Rust, where lengths are `usize` and counts
`u64`). -/
def StatusWF (st : Status) : Prop :=
  st.path.data.length < 18446744073709551616 ∧
  st.branch.data.length < 18446744073709551616 ∧
  st.git_status.length < 18446744073709551616 ∧
  ∀ p ∈ st.git_status,
    p.1.data.length < 18446744073709551616 ∧ p.2 < 18446744073709551616

/-- A valid code-to-count mapping in the sense of the spec grammar: codes
are non-empty tokens without space or `|`, counts fit in a `u64`, and keys
are unique. -/
def ValidEntry (p : String × Nat) : Prop :=
  p.1 ≠ "" ∧ (∀ c ∈ p.1.data, c ≠ ' ' ∧ c ≠ '|') ∧
  p.2 < 18446744073709551616

/-- A valid mapping: unique keys, every entry valid. -/
def ValidMap (m : List (String × Nat)) : Prop :=
  (m.map Prod.fst).Nodup ∧ ∀ p ∈ m, ValidEntry p

instance (st : Status) : Decidable (StatusWF st) :=
  inferInstanceAs (Decidable (st.path.data.length < 18446744073709551616 ∧
    st.branch.data.length < 18446744073709551616 ∧
    st.git_status.length < 18446744073709551616 ∧
    ∀ p ∈ st.git_status,
      p.1.data.length < 18446744073709551616 ∧ p.2 < 18446744073709551616))

instance (p : String × Nat) : Decidable (ValidEntry p) :=
  inferInstanceAs (Decidable (p.1 ≠ "" ∧ (∀ c ∈ p.1.data, c ≠ ' ' ∧ c ≠ '|') ∧
    p.2 < 18446744073709551616))

instance (m : List (String × Nat)) : Decidable (ValidMap m) :=
  inferInstanceAs (Decidable ((m.map Prod.fst).Nodup ∧ ∀ p ∈ m, ValidEntry p))

/-! ## Lemmas about `splitChar` -/

theorem splitChar_nil (sep : Char) : splitChar sep [] = [[]] := rfl

theorem splitChar_cons_self (sep : Char) (cs : List Char) :
    splitChar sep (sep :: cs) = [] :: splitChar sep cs := by
  simp [splitChar]

theorem splitChar_ne_nil (sep : Char) (cs : List Char) :
    splitChar sep cs ≠ [] := by
  induction cs with
  | nil => simp [splitChar]
  | cons c rest ih =>
    simp only [splitChar]
    by_cases h : c = sep
    · simp [h]
    · rw [if_neg h]
      cases hr : splitChar sep rest with
      | nil => simp
      | cons a t => simp

theorem splitChar_cons_of_ne {sep c : Char} (h : c ≠ sep) {cs : List Char}
    {hd : List Char} {tl : List (List Char)} (hs : splitChar sep cs = hd :: tl) :
    splitChar sep (c :: cs) = (c :: hd) :: tl := by
  simp only [splitChar, if_neg h, hs]

theorem splitChar_of_not_mem {sep : Char} :
    ∀ {cs : List Char}, sep ∉ cs → splitChar sep cs = [cs]
  | [], _ => rfl
  | c :: rest, h => by
    have hc : c ≠ sep := fun hcs => h (hcs ▸ List.mem_cons_self c rest)
    have hrest : sep ∉ rest := fun hm => h (List.mem_cons_of_mem c hm)
    exact splitChar_cons_of_ne hc (splitChar_of_not_mem hrest)

theorem splitChar_append {sep : Char} :
    ∀ {xs : List Char} (ys : List Char), sep ∉ xs →
      splitChar sep (xs ++ sep :: ys) = xs :: splitChar sep ys
  | [], ys, _ => by simpa using splitChar_cons_self sep ys
  | x :: xs, ys, h => by
    have hx : x ≠ sep := fun hxs => h (hxs ▸ List.mem_cons_self x xs)
    have hxs : sep ∉ xs := fun hm => h (List.mem_cons_of_mem x hm)
    simpa using splitChar_cons_of_ne hx (splitChar_append ys hxs)

/-! ## Lemmas about the decimal digits -/

theorem digitChar_facts {d : Nat} (hd : d < 10) :
    (Char.ofNat (48 + d)).toNat = 48 + d ∧
    (Char.ofNat (48 + d)).isDigit = true ∧
    Char.ofNat (48 + d) ≠ ' ' ∧ Char.ofNat (48 + d) ≠ '|' ∧
    Char.ofNat (48 + d) ≠ '+' := by
  interval_cases d <;> exact ⟨by decide, by decide, by decide, by decide, by decide⟩

theorem lt_ten_pow (n : Nat) : n < 10 ^ n :=
  Nat.lt_pow_self (by norm_num) n

theorem natToDigitsAux_acc :
    ∀ (fuel n : Nat) (acc : List Char),
      natToDigitsAux fuel n acc = natToDigitsAux fuel n [] ++ acc
  | 0, _, _ => by simp [natToDigitsAux]
  | fuel + 1, n, acc => by
    by_cases hn : n < 10
    · simp [natToDigitsAux, hn]
    · simp only [natToDigitsAux, if_neg hn]
      rw [natToDigitsAux_acc fuel (n / 10) (Char.ofNat (48 + n % 10) :: acc),
        natToDigitsAux_acc fuel (n / 10) [Char.ofNat (48 + n % 10)]]
      simp

theorem natToDigitsAux_fuel :
    ∀ (f1 f2 n : Nat) (acc : List Char), n < 10 ^ (f1 + 1) → n < 10 ^ (f2 + 1) →
      natToDigitsAux (f1 + 1) n acc = natToDigitsAux (f2 + 1) n acc := by
  intro f1
  induction f1 with
  | zero =>
    intro f2 n acc h1 _
    have hn : n < 10 := by simpa using h1
    simp [natToDigitsAux, hn]
  | succ g ih =>
    intro f2 n acc h1 h2
    by_cases hn : n < 10
    · simp [natToDigitsAux, hn]
    · cases f2 with
      | zero =>
        exact absurd (by simpa using h2) hn
      | succ g2 =>
        simp only [natToDigitsAux, if_neg hn]
        have hb1 : n / 10 < 10 ^ (g + 1) :=
          (Nat.div_lt_iff_lt_mul (by norm_num)).mpr (by rw [← pow_succ]; exact h1)
        have hb2 : n / 10 < 10 ^ (g2 + 1) :=
          (Nat.div_lt_iff_lt_mul (by norm_num)).mpr (by rw [← pow_succ]; exact h2)
        exact ih g2 (n / 10) _ hb1 hb2

theorem digitsOf_lt10 {n : Nat} (hn : n < 10) :
    digitsOf n = [Char.ofNat (48 + n)] := by
  simp [digitsOf, natToDigitsAux, hn, Nat.mod_eq_of_lt hn]

theorem natToDigitsAux_step {n : Nat} (hn : ¬ n < 10) (fuel : Nat) (acc : List Char) :
    natToDigitsAux (fuel + 1) n acc =
      natToDigitsAux fuel (n / 10) (Char.ofNat (48 + n % 10) :: acc) := by
  simp only [natToDigitsAux, if_neg hn]

theorem digitsOf_ge10 {n : Nat} (hn : 10 ≤ n) :
    digitsOf n = digitsOf (n / 10) ++ [Char.ofNat (48 + n % 10)] := by
  obtain ⟨g, rfl⟩ : ∃ g, n = g + 1 := ⟨n - 1, by omega⟩
  have hn' : ¬ g + 1 < 10 := by omega
  rw [digitsOf, natToDigitsAux_step hn', natToDigitsAux_acc]
  have h1 : (g + 1) / 10 < 10 ^ (g + 1) :=
    lt_of_le_of_lt (Nat.div_le_self _ _) (lt_ten_pow (g + 1))
  have h2 : (g + 1) / 10 < 10 ^ ((g + 1) / 10 + 1) :=
    lt_of_lt_of_le (lt_ten_pow ((g + 1) / 10))
      (Nat.pow_le_pow_right (by norm_num) (by omega))
  rw [natToDigitsAux_fuel g ((g + 1) / 10) ((g + 1) / 10) [] h1 h2]
  rfl

theorem digitsOf_mem :
    ∀ (n : Nat) {c : Char}, c ∈ digitsOf n → ∃ d, d < 10 ∧ c = Char.ofNat (48 + d) := by
  intro n
  induction n using Nat.strong_induction_on with
  | _ n ih =>
    intro c hc
    by_cases hn : n < 10
    · rw [digitsOf_lt10 hn] at hc
      simp only [List.mem_singleton] at hc
      exact ⟨n, hn, hc⟩
    · rw [digitsOf_ge10 (by omega)] at hc
      rcases List.mem_append.mp hc with h | h
      · exact ih (n / 10) (by omega) h
      · simp only [List.mem_singleton] at h
        exact ⟨n % 10, Nat.mod_lt _ (by norm_num), h⟩

theorem digitsOf_ne_nil (n : Nat) : digitsOf n ≠ [] := by
  by_cases hn : n < 10
  · rw [digitsOf_lt10 hn]; simp
  · rw [digitsOf_ge10 (by omega)]; simp

theorem parseDigitsVal_digitsOf : ∀ n : Nat, parseDigitsVal (digitsOf n) = n := by
  intro n
  induction n using Nat.strong_induction_on with
  | _ n ih =>
    by_cases hn : n < 10
    · rw [digitsOf_lt10 hn]
      have := (digitChar_facts hn).1
      simp [parseDigitsVal, this]
    · rw [digitsOf_ge10 (by omega)]
      have hmod : n % 10 < 10 := Nat.mod_lt _ (by norm_num)
      have htn := (digitChar_facts hmod).1
      have hrec := ih (n / 10) (by omega)
      simp only [parseDigitsVal, List.foldl_append] at *
      simp [hrec, htn]
      omega

theorem parseU64_natToString {n : Nat} (hn : n < 18446744073709551616) :
    parseU64 (natToString n) = some n := by
  obtain ⟨c0, cs0, hds⟩ : ∃ c0 cs0, digitsOf n = c0 :: cs0 := by
    cases h : digitsOf n with
    | nil => exact absurd h (digitsOf_ne_nil n)
    | cons a t => exact ⟨a, t, rfl⟩
  have hc0 : c0 ∈ digitsOf n := by rw [hds]; exact List.mem_cons_self _ _
  obtain ⟨d, hd, hcd⟩ := digitsOf_mem n hc0
  have hplus : c0 ≠ '+' := hcd ▸ (digitChar_facts hd).2.2.2.2
  have hdata : (natToString n).data = digitsOf n := rfl
  rw [parseU64]
  rw [hdata, hds]
  have hhead : ((c0 :: cs0).head? == some '+') = false := by
    simp [hplus]
  rw [hhead]
  simp only [Bool.false_eq_true, if_false]
  have hne : (c0 :: cs0).isEmpty = false := by simp
  rw [hne]
  have hall : (c0 :: cs0).all Char.isDigit = true := by
    rw [← hds]
    rw [List.all_eq_true]
    intro c hc
    obtain ⟨d', hd', hcd'⟩ := digitsOf_mem n hc
    exact hcd' ▸ (digitChar_facts hd').2.1
  rw [hall]
  simp only [Bool.false_eq_true, if_false, if_true]
  have hval : parseDigitsVal (c0 :: cs0) = n := by
    rw [← hds]; exact parseDigitsVal_digitsOf n
  rw [hval, if_pos hn]

/-! ## Lemmas about sorting and rendering -/

theorem data_append (s t : String) : (s ++ t).data = s.data ++ t.data := rfl

theorem insertByKey_length (p : String × Nat) :
    ∀ l : List (String × Nat), (insertByKey p l).length = l.length + 1
  | [] => rfl
  | q :: rest => by
    by_cases h : strLtB p.1.data q.1.data = true
    · simp [insertByKey, h]
    · simp [insertByKey, h, insertByKey_length p rest]

theorem sortEntries_length :
    ∀ l : List (String × Nat), (sortEntries l).length = l.length
  | [] => rfl
  | p :: rest => by
    simp [sortEntries, insertByKey_length, sortEntries_length rest]

theorem insertByKey_subset {x p : String × Nat} :
    ∀ {l : List (String × Nat)}, x ∈ insertByKey p l → x = p ∨ x ∈ l
  | [], h => by
    simp only [insertByKey, List.mem_singleton] at h
    exact Or.inl h
  | q :: rest, h => by
    by_cases hlt : strLtB p.1.data q.1.data = true
    · simp only [insertByKey, if_pos hlt, List.mem_cons] at h
      rcases h with h | h | h
      · exact Or.inl h
      · exact Or.inr (List.mem_cons.mpr (Or.inl h))
      · exact Or.inr (List.mem_cons.mpr (Or.inr h))
    · simp only [insertByKey, if_neg hlt, List.mem_cons] at h
      rcases h with h | h
      · exact Or.inr (List.mem_cons.mpr (Or.inl h))
      · rcases insertByKey_subset h with h' | h'
        · exact Or.inl h'
        · exact Or.inr (List.mem_cons.mpr (Or.inr h'))

theorem sortEntries_subset {x : String × Nat} :
    ∀ {l : List (String × Nat)}, x ∈ sortEntries l → x ∈ l
  | [], h => by simp [sortEntries] at h
  | p :: rest, h => by
    simp only [sortEntries] at h
    rcases insertByKey_subset h with h' | h'
    · exact h' ▸ List.mem_cons_self p rest
    · exact List.mem_cons_of_mem p (sortEntries_subset h')

theorem renderEntry_data (p : String × Nat) :
    (renderEntry p).data = digitsOf p.2 ++ ' ' :: (p.1.data ++ [' ']) := by
  show (natToString p.2 ++ " " ++ p.1 ++ " ").data = _
  rw [data_append, data_append, data_append]
  simp [natToString]

theorem digitsOf_not_space (n : Nat) : ' ' ∉ digitsOf n := by
  intro h
  obtain ⟨d, hd, hcd⟩ := digitsOf_mem n h
  exact (digitChar_facts hd).2.2.1 hcd.symm

theorem digitsOf_not_bar (n : Nat) : '|' ∉ digitsOf n := by
  intro h
  obtain ⟨d, hd, hcd⟩ := digitsOf_mem n h
  exact (digitChar_facts hd).2.2.2.1 hcd.symm

theorem renderEntry_no_bar {p : String × Nat} (hv : ValidEntry p) :
    '|' ∉ (renderEntry p).data := by
  rw [renderEntry_data]
  intro h
  rcases List.mem_append.mp h with h | h
  · exact digitsOf_not_bar p.2 h
  · rcases List.mem_cons.mp h with h | h
    · exact absurd h (by decide)
    · rcases List.mem_append.mp h with h | h
      · exact (hv.2.1 '|' h).2 rfl
      · simp at h

theorem renderEntry_ne_nil (p : String × Nat) : (renderEntry p).data ≠ [] := by
  rw [renderEntry_data]
  intro h
  rcases List.append_eq_nil.mp h with ⟨h1, h2⟩
  exact digitsOf_ne_nil p.2 h1

theorem parseSegment_renderEntry {p : String × Nat} (hv : ValidEntry p) :
    parseSegment (renderEntry p) = some p := by
  have hsp : ' ' ∉ digitsOf p.2 := digitsOf_not_space p.2
  have hsp2 : ' ' ∉ p.1.data := fun h => (hv.2.1 ' ' h).1 rfl
  rw [parseSegment, renderEntry_data, splitChar_append _ hsp,
    show p.1.data ++ [' '] = p.1.data ++ ' ' :: [] from rfl,
    splitChar_append _ hsp2, splitChar_nil]
  show (parseU64 ⟨digitsOf p.2⟩).map (fun n => ((⟨p.1.data⟩ : String), n)) = some p
  rw [show (⟨digitsOf p.2⟩ : String) = natToString p.2 from rfl,
    parseU64_natToString hv.2.2]
  rfl

theorem parseSegList_cons_some {s : List Char} {p : String × Nat}
    (h : parseSegment ⟨s⟩ = some p) (rest : List (List Char)) :
    parseSegList (s :: rest) = (parseSegList rest).map (fun l => p :: l) := by
  simp only [parseSegList, h]

theorem parseSegList_cons_none {s : List Char} (h : parseSegment ⟨s⟩ = none)
    (rest : List (List Char)) : parseSegList (s :: rest) = none := by
  simp only [parseSegList, h]

theorem decode_renderEntry {p : String × Nat} (hv : ValidEntry p) :
    decode (renderEntry p) = some [p] := by
  rw [decode, segmentsOf, splitChar_of_not_mem (renderEntry_no_bar hv)]
  have hfil : [(renderEntry p).data].filter (fun s => !s.isEmpty) =
      [(renderEntry p).data] := by
    simp [renderEntry_ne_nil p]
  rw [hfil, parseSegList_cons_some
    (show parseSegment ⟨(renderEntry p).data⟩ = some p from
      parseSegment_renderEntry hv) []]
  rfl

theorem decode_joinBar_cons_cons {s0 : String × Nat} (hv : ValidEntry s0)
    (e1 : String) (tl : List String) :
    decode (joinBar (renderEntry s0 :: e1 :: tl)) = none := by
  have hj : joinBar (renderEntry s0 :: e1 :: tl) =
      renderEntry s0 ++ "| " ++ joinBar (e1 :: tl) := rfl
  have hdata : (joinBar (renderEntry s0 :: e1 :: tl)).data =
      (renderEntry s0).data ++ '|' :: ' ' :: (joinBar (e1 :: tl)).data := by
    rw [hj, data_append, data_append,
      show ("| " : String).data = ['|', ' '] from rfl]
    simp
  rw [decode, segmentsOf, hdata, splitChar_append _ (renderEntry_no_bar hv)]
  obtain ⟨h2, t2, hs2⟩ : ∃ h2 t2,
      splitChar '|' (joinBar (e1 :: tl)).data = h2 :: t2 := by
    cases h : splitChar '|' (joinBar (e1 :: tl)).data with
    | nil => exact absurd h (splitChar_ne_nil _ _)
    | cons a t => exact ⟨a, t, rfl⟩
  rw [splitChar_cons_of_ne (by decide) hs2]
  have hfil : ((renderEntry s0).data :: (' ' :: h2) :: t2).filter
      (fun s => !s.isEmpty) =
      (renderEntry s0).data :: (' ' :: h2) :: t2.filter (fun s => !s.isEmpty) := by
    rw [List.filter_cons_of_pos (by simp [renderEntry_ne_nil s0]),
      List.filter_cons_of_pos (by simp)]
  rw [hfil, parseSegList_cons_some
    (show parseSegment ⟨(renderEntry s0).data⟩ = some s0 from
      parseSegment_renderEntry hv) _]
  have hseg1 : parseSegment ⟨' ' :: h2⟩ = none := by
    rw [parseSegment]
    show (match splitChar ' ' (' ' :: h2) with
      | p0 :: p1 :: _ => (parseU64 ⟨p0⟩).map (fun n => ((⟨p1⟩ : String), n))
      | _ => none) = none
    rw [splitChar_cons_self]
    obtain ⟨h3, t3, hs3⟩ : ∃ h3 t3, splitChar ' ' h2 = h3 :: t3 := by
      cases h : splitChar ' ' h2 with
      | nil => exact absurd h (splitChar_ne_nil _ _)
      | cons a t => exact ⟨a, t, rfl⟩
    rw [hs3]
    rfl
  rw [parseSegList_cons_none hseg1]
  rfl

/-! ## Round-trip lemmas for the bincode model and the store -/

theorem readU64_ser (n : Nat) (rest : List Nat) :
    readU64 (serU64 n ++ rest) = .ok (n % 18446744073709551616, rest) := by
  simp only [serU64, List.cons_append, List.nil_append, readU64,
    Except.ok.injEq, Prod.mk.injEq]
  exact ⟨by omega, trivial⟩

theorem readU64_ser_lt {n : Nat} (h : n < 18446744073709551616)
    (rest : List Nat) : readU64 (serU64 n ++ rest) = .ok (n, rest) := by
  rw [readU64_ser, Nat.mod_eq_of_lt h]

theorem strBytes_length (s : String) : (strBytes s).length = s.data.length := by
  simp [strBytes]

theorem readString_ser {s : String} (h : s.data.length < 18446744073709551616)
    (rest : List Nat) : readString (serString s ++ rest) = .ok (s, rest) := by
  rw [serString, List.append_assoc]
  have hle : s.data.length ≤ (strBytes s ++ rest).length := by
    simp [strBytes_length]
  have htake : (strBytes s ++ rest).take s.data.length = strBytes s := by
    rw [← strBytes_length s]
    simp
  have hdrop : (strBytes s ++ rest).drop s.data.length = rest := by
    rw [← strBytes_length s]
    simp
  have hmap : (strBytes s).map Char.ofNat = s.data := by
    simp [strBytes, List.map_map, Function.comp_def, Char.ofNat_toNat]
  simp only [readString, readU64_ser_lt h, hle, if_true, htake, hdrop, hmap]

theorem readEntries_ser :
    ∀ (l : List (String × Nat)) (bs : List Nat),
      (∀ p ∈ l, p.1.data.length < 18446744073709551616 ∧
        p.2 < 18446744073709551616) →
      readEntries l.length (serEntries l ++ bs) = .ok (l, bs)
  | [], bs, _ => rfl
  | p :: rest, bs, h => by
    have hp := h p (List.mem_cons_self p rest)
    have hrest : ∀ q ∈ rest, q.1.data.length < 18446744073709551616 ∧
        q.2 < 18446744073709551616 :=
      fun q hq => h q (List.mem_cons_of_mem p hq)
    show readEntries (rest.length + 1) (serEntries (p :: rest) ++ bs) = _
    rw [serEntries, List.append_assoc, List.append_assoc]
    simp only [readEntries, readString_ser hp.1, readU64_ser_lt hp.2,
      readEntries_ser rest bs hrest]

theorem deserStatus_ser {st : Status} (h : StatusWF st) :
    deserStatus (serStatus st) = .ok st := by
  obtain ⟨hpath, hbranch, hlen, hentries⟩ := h
  have h4 : readEntries st.git_status.length (serEntries st.git_status) =
      .ok (st.git_status, []) := by
    have := readEntries_ser st.git_status [] hentries
    rwa [List.append_nil] at this
  rw [serStatus, List.append_assoc, List.append_assoc]
  simp only [deserStatus, readString_ser hpath, readString_ser hbranch,
    readU64_ser_lt hlen, h4]

theorem storeLookup_insert_self (db : Database) (k v : List Nat) :
    storeLookup (storeInsert db k v) k = some v := by
  rw [storeLookup, storeInsert, List.find?_cons_of_pos _ (by simp)]
  rfl

theorem dbGet_update_self (db : Database) {st : Status} (h : StatusWF st) :
    Database.get (Database.update db st) st.path = .ok st := by
  rw [Database.get, Database.update, storeLookup_insert_self]
  show deserStatus (serStatus st) = .ok st
  exact deserStatus_ser h

/-! ## Last-binding-wins lemmas for the `HashMap` model -/

theorem find?_filter_of_imp {α : Type} (f q : α → Bool)
    (himp : ∀ x, f x = true → q x = true) :
    ∀ l : List α, (l.filter q).find? f = l.find? f
  | [] => rfl
  | c :: t => by
    cases hq : q c with
    | true =>
      rw [List.filter_cons_of_pos hq]
      cases hf : f c with
      | true => rw [List.find?_cons_of_pos _ hf, List.find?_cons_of_pos _ hf]
      | false =>
        rw [List.find?_cons_of_neg _ (by simp [hf]),
          List.find?_cons_of_neg _ (by simp [hf])]
        exact find?_filter_of_imp f q himp t
    | false =>
      have hf : f c = false := by
        cases hfc : f c with
        | true => exact absurd (himp c hfc) (by simp [hq])
        | false => rfl
      rw [List.filter_cons_of_neg (by simp [hq]),
        List.find?_cons_of_neg _ (by simp [hf])]
      exact find?_filter_of_imp f q himp t

theorem lookupKey_hashInsert (m : List (String × Nat)) (a : String) (b : Nat)
    (k : String) :
    lookupKey (hashInsert m a b) k = if a = k then some b else lookupKey m k := by
  by_cases hak : a = k
  · subst hak
    rw [if_pos rfl, lookupKey, hashInsert,
      List.find?_cons_of_pos _ (by simp)]
    rfl
  · rw [if_neg hak, lookupKey, hashInsert,
      List.find?_cons_of_neg _ (by simp [hak]),
      find?_filter_of_imp _ _ ?_]
    · rfl
    · intro x hx
      simp only [beq_iff_eq] at hx
      have hxa : x.1 ≠ a := by
        rw [hx]
        exact fun h => hak h.symm
      simp [hxa]

theorem lookupKey_foldl_hashInsert (k : String) :
    ∀ (l : List (String × Nat)) (m0 : List (String × Nat)),
      lookupKey (l.foldl (fun m p => hashInsert m p.1 p.2) m0) k =
        ((l.reverse.find? (fun p => p.1 == k)).map Prod.snd).or (lookupKey m0 k)
  | [], m0 => by simp
  | p :: t, m0 => by
    show lookupKey (t.foldl (fun m p => hashInsert m p.1 p.2)
      (hashInsert m0 p.1 p.2)) k = _
    rw [lookupKey_foldl_hashInsert k t (hashInsert m0 p.1 p.2)]
    rw [show (p :: t).reverse = t.reverse ++ [p] by simp]
    rw [List.find?_append]
    cases hf : t.reverse.find? (fun p => p.1 == k) with
    | some q => simp [Option.or]
    | none =>
      simp only [Option.map_none', Option.none_or]
      rw [lookupKey_hashInsert]
      by_cases hpk : p.1 = k
      · rw [if_pos hpk, List.find?_cons_of_pos _ (by simp [hpk])]
        simp [Option.or]
      · rw [if_neg hpk, List.find?_cons_of_neg _ (by simp [hpk]),
          List.find?_nil]
        simp

/-- The path stored by `Status::new` is exactly the path argument. -/
theorem Status.new_path {pa b g : String} {st : Status}
    (h : Status.new pa b g = some st) : st.path = pa := by
  rw [Status.new] at h
  cases hd : decode g with
  | none =>
    rw [hd] at h
    simp at h
  | some m =>
    rw [hd] at h
    simp only [Option.map_some', Option.some.injEq] at h
    rw [← h]

/-! ## The claims -/

/-- Claim C1 (code bug): the claim says `decode` either returns a mapping or
fails with a `ParseError` value and never aborts the process.  The code's
`Status::new` has no error channel at all (it returns a plain `Status`): on
a segment with a non-numeric count (`"X M"`) it panics in
`parts[0].parse::<u64>().unwrap()`, and on a segment without a space (`"M"`)
it panics indexing `parts[1]`; both abort the process.  In the embedding a
panic is `none`, and both inputs evaluate to `none`, not to any error
value. -/
theorem c1_malformed_segment_panics :
    Status.new "/p" "main" "X M" = none ∧ Status.new "/p" "main" "M" = none ∧
    decode "X M" = none ∧ decode "M" = none :=
  ⟨rfl, rfl, rfl, rfl⟩

/-- Claim C2 (code bug): the claim says `get` on a never-written path
returns the zero-value record and never an error.  The code substitutes the
empty byte string for the missing value (`unwrap_or_default`) and then
`bincode::deserialize` of zero bytes fails, so `get` returns a
deserialization error: on the empty store, `get "/unknown"` evaluates to an
error, not to a zero-value record. -/
theorem c2_get_missing_key_errors :
    Database.get emptyDb "/unknown" = .error "unexpected end of input" :=
  rfl

/-- Claim C3, counterexample: canonicalization is not applied before Get.
After `put(path="foo/bar", branch="main", rawStatus="1 M")`, the record is
retrievable under the canonical spelling `"foo/bar"`, but a Get under the
equivalent spelling `"foo/bar/"` misses the record entirely (and then fails
with the deserialize-empty error), so Put under one spelling followed by Get
under the other does not resolve to the same stored record. -/
theorem c3_get_does_not_canonicalize :
    Database.get ((mainPut emptyDb "foo/bar" "main" "1 M").getD emptyDb)
      "foo/bar" = .ok ⟨"foo/bar", "main", [("M", 1)]⟩ ∧
    Database.get ((mainPut emptyDb "foo/bar" "main" "1 M").getD emptyDb)
      "foo/bar/" = .error "unexpected end of input" :=
  ⟨rfl, rfl⟩

/-- Claim C3, amended: canonicalization (trim whitespace, strip one trailing
separator) is applied before every Put but not before Get; a Put under any
spelling followed by a Get under the canonical spelling resolves to the
stored record. -/
theorem c3_put_canonicalizes_get_canonical (db : Database) (p b g : String)
    (st : Status)
    (h : Status.new (canonicalize p) (trimStr b) (trimStr g) = some st)
    (hwf : StatusWF st) :
    mainPut db p b g = some (Database.update db st) ∧
    Database.get (Database.update db st) (canonicalize p) = .ok st := by
  constructor
  · rw [mainPut, h]
    rfl
  · rw [← Status.new_path h]
    exact dbGet_update_self db hwf

theorem c3_put_canonicalizes_get_canonical_witness :
    Status.new (canonicalize "foo/bar/") (trimStr "main") (trimStr "") =
      some ⟨"foo/bar", "main", []⟩ ∧
    StatusWF (⟨"foo/bar", "main", []⟩ : Status) ∧
    (mainPut emptyDb "foo/bar/" "main" "" =
      some (Database.update emptyDb ⟨"foo/bar", "main", []⟩) ∧
    Database.get (Database.update emptyDb ⟨"foo/bar", "main", []⟩)
      (canonicalize "foo/bar/") = .ok ⟨"foo/bar", "main", []⟩) :=
  ⟨rfl, by decide,
    c3_put_canonicalizes_get_canonical emptyDb "foo/bar/" "main" ""
      ⟨"foo/bar", "main", []⟩ rfl (by decide)⟩

/-- Claim C4, counterexample: the round trip fails for every valid mapping
with two or more entries — at the spec's own example mapping,
`encode {"??" ↦ 1, "M" ↦ 3} = "1 ?? | 3 M "`, and decoding that string
panics (`none`): splitting on `'|'` leaves the second segment `" 3 M "`
starting with a space, so its count token is empty and
`"".parse::<u64>().unwrap()` aborts.  In particular
`decode (encode m) ≠ some m` for this valid `m`. -/
theorem c4_roundtrip_fails_two_entries :
    decode (encode [("??", 1), ("M", 3)]) = none ∧
    encode [("??", 1), ("M", 3)] = "1 ?? | 3 M " :=
  ⟨rfl, rfl⟩

/-- Claim C4, amended: for every valid mapping with at most one entry,
decoding the encoding yields exactly the mapping back; for every valid
mapping with two or more entries, decoding the encoding panics (`none`),
because the `"| "` separator leaves a leading space on every segment after
the first. -/
theorem c4_roundtrip (m : List (String × Nat)) (hv : ValidMap m) :
    (m.length ≤ 1 → decode (encode m) = some m) ∧
    (2 ≤ m.length → decode (encode m) = none) := by
  constructor
  · intro hlen
    match m, hv, hlen with
    | [], _, _ => rfl
    | [p], hv, _ =>
      have hvp : ValidEntry p := hv.2 p (List.mem_cons_self p [])
      have he : encode [p] = renderEntry p := rfl
      rw [he, decode_renderEntry hvp]
  · intro hlen
    obtain ⟨s0, s1, rest, hs⟩ : ∃ s0 s1 rest,
        sortEntries m = s0 :: s1 :: rest := by
      have hl := sortEntries_length m
      cases hsm : sortEntries m with
      | nil =>
        rw [hsm] at hl
        simp at hl
        omega
      | cons a t =>
        cases t with
        | nil =>
          rw [hsm] at hl
          simp at hl
          omega
        | cons b t2 => exact ⟨a, b, t2, rfl⟩
    have hmem : s0 ∈ sortEntries m := by
      rw [hs]
      exact List.mem_cons_self _ _
    have hv0 : ValidEntry s0 := hv.2 s0 (sortEntries_subset hmem)
    have he : encode m =
        joinBar (renderEntry s0 :: renderEntry s1 :: rest.map renderEntry) := by
      rw [encode, hs]
      rfl
    rw [he]
    exact decode_joinBar_cons_cons hv0 _ _

theorem c4_roundtrip_witness :
    ValidMap [("M", 3)] ∧
    ((([("M", 3)] : List (String × Nat)).length ≤ 1 →
      decode (encode [("M", 3)]) = some [("M", 3)]) ∧
    (2 ≤ ([("M", 3)] : List (String × Nat)).length →
      decode (encode [("M", 3)]) = none)) :=
  ⟨by decide, c4_roundtrip [("M", 3)] (by decide)⟩

/-- Claim C5 (code bug): the claim (and the error message the code itself
produces) says open makes exactly 10 attempts before failing.  The loop
increments `attempts` after each failure and only returns once
`attempts > 10`, so with a perpetually unavailable backing store it calls
`sled::open` 11 times, sleeping 100 ms between consecutive attempts (10
sleeps), and then fails with an error wrapping the last underlying cause —
while claiming "failed after 10 attempts". -/
theorem c5_open_makes_eleven_attempts :
    Database.new (fun _ => .error "store locked") =
      (.error "failed after 10 attempts: store locked", 11, 10) :=
  rfl

/-- Claim C6 (confirmed): for records `r1`, `r2` with the same path, Put of
`r1` then Put of `r2` then Get at that path yields exactly `r2` — the
second Put replaces the first wholesale, no merging of fields or counts. -/
theorem c6_second_put_overwrites (db : Database) (r1 r2 : Status)
    (_hpath : r1.path = r2.path) (hwf : StatusWF r2) :
    Database.get (Database.update (Database.update db r1) r2) r2.path =
      .ok r2 :=
  dbGet_update_self (Database.update db r1) hwf

theorem c6_second_put_overwrites_witness :
    (⟨"a", "b1", [("M", 1)]⟩ : Status).path =
      (⟨"a", "b2", [("??", 2)]⟩ : Status).path ∧
    StatusWF (⟨"a", "b2", [("??", 2)]⟩ : Status) ∧
    Database.get (Database.update
        (Database.update emptyDb ⟨"a", "b1", [("M", 1)]⟩)
        ⟨"a", "b2", [("??", 2)]⟩) "a" = .ok ⟨"a", "b2", [("??", 2)]⟩ :=
  ⟨rfl, by decide,
    c6_second_put_overwrites emptyDb ⟨"a", "b1", [("M", 1)]⟩
      ⟨"a", "b2", [("??", 2)]⟩ rfl (by decide)⟩

/-- Claim C7 (confirmed): Put followed by Get with the same path returns a
record whose branch and fileStates (indeed the whole record) equal what was
stored. -/
theorem c7_put_get_roundtrip (db : Database) (st : Status)
    (hwf : StatusWF st) :
    Database.get (Database.update db st) st.path = .ok st :=
  dbGet_update_self db hwf

theorem c7_put_get_roundtrip_witness :
    StatusWF (⟨"/home/u/proj", "main", [("M", 2), ("??", 1)]⟩ : Status) ∧
    Database.get (Database.update emptyDb
        ⟨"/home/u/proj", "main", [("M", 2), ("??", 1)]⟩) "/home/u/proj" =
      .ok ⟨"/home/u/proj", "main", [("M", 2), ("??", 1)]⟩ :=
  ⟨by decide,
    c7_put_get_roundtrip emptyDb ⟨"/home/u/proj", "main", [("M", 2), ("??", 1)]⟩
      (by decide)⟩

/-- Claim C8, counterexample: the Put path is not always non-empty
canonical.  `canonicalize "/" = ""`, so `put(path="/")` stores a record
under the empty key; and `canonicalize "a//" = "a/"` still ends in a
separator (only one trailing separator is stripped). -/
theorem c8_put_stores_empty_key :
    canonicalize "/" = "" ∧ canonicalize "a//" = "a/" ∧
    mainPut emptyDb "/" "b" "" =
      some [(serString "", serStatus ⟨"", "b", []⟩)] :=
  ⟨rfl, rfl, rfl⟩

/-- Claim C8, amended: every record stored by Put has its path equal to the
trimmed input with at most one trailing separator stripped
(`canonicalize`); that path may be empty (e.g. input `"/"` or whitespace)
or may still end in a separator (e.g. input `"a//"`), so a Put can store a
record under the empty key. -/
theorem c8_stored_path_is_canonicalized_input (db : Database)
    (p b g : String) (st : Status)
    (h : Status.new (canonicalize p) (trimStr b) (trimStr g) = some st) :
    st.path = canonicalize p ∧
    mainPut db p b g =
      some (storeInsert db (serString (canonicalize p)) (serStatus st)) := by
  refine ⟨Status.new_path h, ?_⟩
  rw [mainPut, h]
  show some (Database.update db st) = _
  rw [Database.update, Status.new_path h]

theorem c8_stored_path_is_canonicalized_input_witness :
    Status.new (canonicalize "/") (trimStr "b") (trimStr "") =
      some ⟨"", "b", []⟩ ∧
    ((⟨"", "b", []⟩ : Status).path = canonicalize "/" ∧
    mainPut emptyDb "/" "b" "" =
      some (storeInsert emptyDb (serString (canonicalize "/"))
        (serStatus ⟨"", "b", []⟩))) :=
  ⟨rfl, c8_stored_path_is_canonicalized_input emptyDb "/" "b" ""
    ⟨"", "b", []⟩ rfl⟩

/-- Claim C9 (confirmed): decoding the empty string yields the empty
mapping, and encoding the empty mapping yields the empty string. -/
theorem c9_empty_codec : decode "" = some [] ∧ encode [] = "" :=
  ⟨rfl, rfl⟩

/-- Claim C10 (confirmed): when the raw status string parses into segments
`l`, the decoded mapping binds every code to the count of the LAST segment
with that code (`l.reverse.find?`): earlier counts of a duplicated code are
silently discarded, not summed and not rejected. -/
theorem c10_last_duplicate_wins (raw : String) (l : List (String × Nat))
    (h : segmentsOf raw = some l) (path branch k : String) :
    Status.new path branch raw = some ⟨path, branch, buildMap l⟩ ∧
    lookupKey (buildMap l) k =
      (l.reverse.find? (fun p => p.1 == k)).map Prod.snd := by
  constructor
  · rw [Status.new, decode, h]
    rfl
  · rw [buildMap, lookupKey_foldl_hashInsert]
    simp [lookupKey]

theorem c10_last_duplicate_wins_witness :
    segmentsOf "1 M|2 M" = some [("M", 1), ("M", 2)] ∧
    (Status.new "/p" "main" "1 M|2 M" =
      some ⟨"/p", "main", buildMap [("M", 1), ("M", 2)]⟩ ∧
    lookupKey (buildMap [("M", 1), ("M", 2)]) "M" =
      (([("M", 1), ("M", 2)] : List (String × Nat)).reverse.find?
        (fun p => p.1 == "M")).map Prod.snd) :=
  ⟨rfl, c10_last_duplicate_wins "1 M|2 M" [("M", 1), ("M", 2)] rfl
    "/p" "main" "M"⟩

end GitStatusTracker
